import Mathlib

/-!
Verification of the jindai query compiler (`jindai/dbquery.py`), job validation
(`api.py`), flow-control stages (`plugins/pipelines/controls.py`) and the task
queue worker loop (`api.py`), via a shallow embedding in Lean.

Aggregation pipelines are lists of stages; match conditions are a small AST
covering the shapes the code manipulates.
-/

namespace Jindai

/-- Match conditions: `fieldEq f v` is the dict with the single entry f: v;
`orEq f vs` is an OR-of-equalities on one field f over the values vs;
`and a b` is the conjunction built by MongoOperand's AND combinator;
`lit s` stands for any other condition dict, named by a label. -/
inductive Cond where
  | fieldEq (field value : String)
  | orEq (field : String) (values : List String)
  | and (a b : Cond)
  | lit (s : String)
deriving DecidableEq, Repr

/-- Aggregation stages as manipulated by dbquery.py: a match stage wrapping a
condition, a sort stage with its key list, a sample stage, skip and limit
stages, the reserved raw-mode and plugin markers, and an arbitrary other
stage named by a label. Sort directions are integers (1 or -1). -/
inductive Stage where
  | matchStage (c : Cond)
  | sortStage (keys : List (String × Int))
  | sample (size : Nat)
  | skipStage (n : Nat)
  | limitStage (n : Nat)
  | rawMarker (b : Bool)
  | pluginMarker (s : String)
  | lit (s : String)
deriving DecidableEq, Repr

/-- Whether a stage is a sort stage (the dict contains key dollar-sort). -/
def Stage.isSort : Stage → Bool
  | Stage.sortStage _ => true
  | _ => false

/-- Whether a stage is a skip stage. -/
def Stage.isSkip : Stage → Bool
  | Stage.skipStage _ => true
  | _ => false

/-- Whether a stage is a limit stage. -/
def Stage.isLimit : Stage → Bool
  | Stage.limitStage _ => true
  | _ => false

/-- Character codes of the reserved punctuation class in `_judge_type`
(dbquery.py line 96): comma, period, tilde, equals, ampersand, vertical bar,
parentheses, angle brackets, single and double quote, backtick, at sign,
underscore, asterisk, hyphen, percent. -/
def reservedPunctCodes : List Nat :=
  [44, 46, 126, 61, 38, 124, 40, 41, 62, 60, 39, 34, 96, 64, 95, 42, 45, 37]

/-- Python's `str.strip`: whitespace removed from both ends. -/
def strip (s : String) : String :=
  String.mk
    (((s.toList.dropWhile Char.isWhitespace).reverse.dropWhile Char.isWhitespace).reverse)

/-- Python's `str.lower`, character by character. -/
def lower (s : String) : String :=
  String.mk (s.toList.map Char.toLower)

/-- `_judge_type` (dbquery.py lines 90-99): a query is in expression mode when
it starts with the sigil (question mark, code 63) or contains a reserved
punctuation character. -/
def judgeType (query : String) : Bool :=
  (match query.toList with
    | c :: _ => c.toNat = 63
    | [] => false) ||
  query.toList.any (fun c => reservedPunctCodes.contains c.toNat)

/-- The token list built inside `_auto` (dbquery.py lines 105-106): tokens of
the word cutter whose strip is nonempty, stripped and lower-cased. The word
cutter (jieba) is external and passed as a parameter. -/
def autoTerms (cut : String → List String) (q : String) : List String :=
  ((cut q).filter (fun t => strip t != "")).map (fun t => lower (strip t))

/-- Modelled from the spec: `parser.parse` (PyMongoWrapper, not in this
repository) applied to the backtick-joined keyword literal built by `_auto`,
then wrapped into a match stage by `DBQuery._parse` lines 180-186. Per the
spec, the tokens are combined as an OR-of-equalities on the keywords field,
de-duplicated; the empty literal parses to nothing, which `_parse` turns into
the match-all empty aggregation list. -/
def parseKeywordTerms (terms : List String) : List Stage :=
  if terms = [] then [] else [Stage.matchStage (Cond.orEq "keywords" terms.dedup)]

/-- `DBQuery._merge_req` (dbquery.py lines 191-204): a falsy extra filter
leaves the parsed query unchanged; otherwise the filter is ANDed into a
leading match stage when there is one, else appended as a new match stage.
Indexing `qparsed[0]` on an empty list raises in Python, modelled by `none`. -/
def merge_req (qparsed : List Stage) (req : Option Cond) : Option (List Stage) :=
  match req with
  | none => some qparsed
  | some r =>
    match qparsed with
    | [] => none
    | Stage.matchStage c :: rest => some (Stage.matchStage (Cond.and c r) :: rest)
    | q => some (q ++ [Stage.matchStage r])

/-- `DBQuery._parse` (dbquery.py lines 148-189) on a plain string query with
no extra limitations. An empty query returns the match-all empty list;
expression mode strips leading sigils and defers to the external expression
compiler `exprParse`; keyword mode tokenizes with `cut` and produces the
keyword match stage; the final `_merge_req` with empty limitations is the
identity. -/
def parse_str (exprParse : String → List Stage) (cut : String → List String)
    (q : String) : List Stage :=
  if q = "" then []
  else
    let parsed :=
      if judgeType q then exprParse (String.mk (q.toList.dropWhile (fun c => c.toNat = 63)))
      else parseKeywordTerms (autoTerms cut q)
    (merge_req parsed none).getD []

/-- The default stable sort appended by `fetch_rs` when no sort is given
(dbquery.py lines 311-315): recency descending, then identifier ascending. -/
def defaultSortKeys : List (String × Int) := [("pdate", -1), ("_id", 1)]

/-- The aggregation pipeline built by `DBQuery.fetch_rs` (dbquery.py lines
307-326) from the stored query, the parsed sort key list, and the effective
limit and skip. An absent or identity sort appends the default stable sort
only when no sort stage exists; a random sort appends a sample stage bounded
by the limit and zeroes both limit and skip; any other sort appends a sort
stage. A skip stage is appended only for positive skip, then a limit stage
only for positive limit. -/
def fetchRsAgg (query : List Stage) (sort : List (String × Int))
    (limit skip : Nat) : List Stage :=
  let step :=
    if sort = [] ∨ sort = [("_id", (1 : Int))] then
      (if query.any Stage.isSort then query else query ++ [Stage.sortStage defaultSortKeys],
       limit, skip)
    else if sort = [("random", (1 : Int))] then
      (query ++ [Stage.sample limit], 0, 0)
    else
      (query ++ [Stage.sortStage sort], limit, skip)
  let agg := if step.2.2 > 0 then step.1 ++ [Stage.skipStage step.2.2] else step.1
  if step.2.1 > 0 then agg ++ [Stage.limitStage step.2.1] else agg

/-- The mutable `DBQuery` state relevant to `fetch_rs`: the stored compiled
query and the configured sort, limit and skip. -/
structure DBQueryState where
  query : List Stage
  sort : List (String × Int)
  limit : Nat
  skip : Nat
deriving DecidableEq, Repr

/-- `DBQuery.fetch_rs` with default arguments (dbquery.py lines 295-329) as a
state transformer: `agg = self.query` aliases the stored list and every
`agg.append` mutates it in place, so after the call the stored query is the
built pipeline. Returns the new state and the pipeline that is executed. -/
def fetch_rs (st : DBQueryState) : DBQueryState × List Stage :=
  let agg := fetchRsAgg st.query st.sort st.limit st.skip
  ({ st with query := agg }, agg)

/-- Number of sort stages in a pipeline. -/
def countSorts (q : List Stage) : Nat := q.countP (fun s => s.isSort)

/-- Per-collection limit as applied by `fetch_rs`: a limit stage is appended
only when the limit is positive. -/
def applyLimit (limit : Nat) (xs : List α) : List α :=
  if limit > 0 then xs.take limit else xs

/-- The per-collection skip table built by the first loop of
`DBQuery.fetch_all_rs` (dbquery.py lines 334-343) from the collection sizes
and the global skip: a collection whose count is at most the remaining skip
is marked fully skipped (`none`, the -1 marker) and the loop continues with
the remainder; the first collection with more documents receives the
remaining skip and the loop breaks, leaving later collections off the table. -/
def skipsFor : List Nat → Nat → List (Option Nat)
  | [], _ => []
  | c :: cs, skip =>
    if c ≤ skip then none :: skipsFor cs (skip - c) else [some skip]

/-- One collection's contribution to the result stream (dbquery.py lines
345-347, via `fetch_rs` with the collection's skip entry): a collection
marked -1 yields nothing; otherwise its documents after the per-collection
skip, subject to the per-collection limit. Sorting is abstracted as the
collection's given order. -/
def collFetch (limit : Nat) (coll : List α) : Option Nat → List α
  | none => []
  | some s => applyLimit limit (coll.drop s)

/-- `DBQuery.fetch_all_rs` (dbquery.py lines 331-347): when the global skip is
positive the skip table is computed from the collection counts; collections
missing from the table default to skip 0; the result concatenates the
per-collection fetches in order. -/
def fetch_all_rs (colls : List (List α)) (skip limit : Nat) : List α :=
  let sk := if skip > 0 then skipsFor (colls.map List.length) skip else []
  let padded := sk ++ List.replicate (colls.length - sk.length) (some 0)
  ((colls.zip padded).map (fun p => collFetch limit p.1 p.2)).flatten

/-- Sum of per-collection counts in `DBQuery.count` (dbquery.py line 361):
the list comprehension counts every collection; a raised error anywhere makes
the whole sum unavailable. -/
def sumCounts : List (Except String Nat) → Option Nat
  | [] => some 0
  | Except.ok n :: rest => (sumCounts rest).map (fun m => n + m)
  | Except.error _ :: _ => none

/-- `DBQuery.count` (dbquery.py lines 358-363): the sum of the per-collection
counts, or the sentinel -1 when any per-collection count raises. -/
def countDB (colls : List (Except String Nat)) : Int :=
  match sumCounts colls with
  | some n => (n : Int)
  | none => -1

/-- The raw-marker step of `DBQuery.__init__` (dbquery.py lines 236-238):
when the compiled query has more than one stage and its last stage is the
reserved raw-mode marker, the raw flag is set to the marker's value and the
marker stage is dropped; otherwise query and flag are unchanged. Returns the
resulting (query, raw) pair. -/
def applyRawMarker (query : List Stage) (raw : Bool) : List Stage × Bool :=
  if 1 < query.length then
    match query.getLast? with
    | some (Stage.rawMarker b) => (query.dropLast, b)
    | _ => (query, raw)
  else (query, raw)

/-- `_valid_args` inside `valid_task` (api.py lines 154-164): collect every
configuration key that is not among the target's declared constructor
parameter names or whose value is null, then delete those keys; the surviving
entries are untouched. Configurations are keyed association lists; a null
value is `none`. -/
def valid_args (argnames : List String) (args : List (String × Option V)) :
    List (String × Option V) :=
  let toremove :=
    (args.filter (fun kv => !(decide (kv.1 ∈ argnames)) || kv.2.isNone)).map Prod.fst
  args.filter (fun kv => !(decide (kv.1 ∈ toremove)))

/-- Where `RepeatWhile.flow` routes a record: back into the sub-pipeline, or
on to the stage's next stage. -/
inductive Route where
  | sub
  | next
deriving DecidableEq, Repr

/-- One visit of `RepeatWhile.flow` (controls.py lines 58-70) with the default
condition `counter < times`: a missing counter field reads as 0; the condition
is evaluated before the increment; when it holds and the sub-pipeline has
stages the record goes into the sub-pipeline carrying the incremented counter,
otherwise the counter field is cleared and the record goes to next. Returns
the record's counter field and the chosen route. -/
def repeatVisit (times : Nat) (counter : Option Nat) (hasStages : Bool) :
    Option Nat × Route :=
  let c := counter.getD 0
  if decide (c < times) && hasStages then (some (c + 1), Route.sub)
  else (none, Route.next)

/-- Driving one record through a `RepeatWhile` stage whose sub-pipeline acts
as `sub` on the payload and preserves the namespaced counter field (the
sub-pipeline's last stage is rewired back to the stage, controls.py line 66).
Fuel-bounded; returns the emitted payload, the counter field on the emitted
record, and how many times the sub-pipeline ran. -/
def runRepeat (times : Nat) (sub : α → α) (hasStages : Bool) :
    Nat → α → Option Nat → Option (α × Option Nat × Nat)
  | 0, _, _ => none
  | fuel + 1, p, counter =>
    match repeatVisit times counter hasStages with
    | (c, Route.sub) =>
      (runRepeat times sub hasStages fuel (sub p) c).map
        (fun r => (r.1, r.2.1, r.2.2 + 1))
    | (c, Route.next) => some (p, c, 0)

/-- A stored task outcome in the queue's results map: a normal result, or the
structured failure holding the exception message and the formatted trace
(api.py line 88). -/
inductive TaskResult (ρ : Type) where
  | ok (r : ρ)
  | failure (msg trace : String)
deriving DecidableEq, Repr

/-- How `TasksQueue.working` stores one task's outcome: the try block covers
construction and execution; an exception becomes the structured failure. -/
def mkResult (r : Except (String × String) ρ) : TaskResult ρ :=
  match r with
  | Except.ok v => TaskResult.ok v
  | Except.error e => TaskResult.failure e.1 e.2

/-- The `TasksQueue` state touched by the worker loop: the running flag, the
pending queue of (run id, spec), the results map as an insertion-ordered
association list, and the current running task id. -/
structure QState (σ ρ : Type) where
  running : Bool
  queue : List (String × σ)
  results : List (String × TaskResult ρ)
  runningTask : String
deriving DecidableEq, Repr

/-- One iteration of the `while self.running` body of `TasksQueue.working`
(api.py lines 77-93): with a pending task, pop it, run it under try/except —
task construction and execution are `exec` — store the outcome under its run
id, and reset the running-task id; with an empty queue, clear the running
flag. -/
def queueStep (exec : σ → Except (String × String) ρ) (s : QState σ ρ) :
    QState σ ρ :=
  match s.queue with
  | [] => { s with running := false }
  | (k, t) :: rest =>
    { running := s.running, queue := rest,
      results := s.results ++ [(k, mkResult (exec t))], runningTask := "" }

/-- The `while self.running` loop of `TasksQueue.working`, fuel-bounded: each
round runs one body iteration while the flag is up. -/
def queueRun (exec : σ → Except (String × String) ρ) :
    Nat → QState σ ρ → QState σ ρ
  | 0, s => s
  | fuel + 1, s => if s.running then queueRun exec fuel (queueStep exec s) else s

/-- A simple concrete word cutter splitting on spaces, used to instantiate
the external tokenizer in witnesses. -/
def spaceCutAux : List Char → List Char → List String
  | [], acc => if acc = [] then [] else [String.mk acc.reverse]
  | c :: cs, acc =>
    if c = ' ' then
      (if acc = [] then spaceCutAux cs [] else String.mk acc.reverse :: spaceCutAux cs [])
    else spaceCutAux cs (c :: acc)

/-- Split a string into space-separated words. -/
def spaceCut (s : String) : List String := spaceCutAux s.toList []

/-! ## Theorems -/

/-- C1: a query string with no reserved punctuation and no expression sigil
compiles to a single match stage that is an OR-of-equalities on the keywords
field over the tokenized, lower-cased, de-duplicated terms; an input that
tokenizes to nothing (for example, all-whitespace) compiles to the match-all
empty aggregation list. The word cutter is any tokenizer that produces
nothing from the empty string (as jieba does). -/
theorem c1_keyword_query (exprParse : String → List Stage)
    (cut : String → List String) (q : String)
    (hcut : cut "" = []) (h : judgeType q = false) :
    (autoTerms cut q = [] → parse_str exprParse cut q = []) ∧
    (autoTerms cut q ≠ [] →
      parse_str exprParse cut q =
        [Stage.matchStage (Cond.orEq "keywords" (autoTerms cut q).dedup)] ∧
      (autoTerms cut q).dedup.Nodup ∧
      ∀ t ∈ (autoTerms cut q).dedup,
        ∃ s ∈ cut q, strip s ≠ "" ∧ t = lower (strip s)) ∧
    ((∀ t ∈ cut q, strip t = "") → parse_str exprParse cut q = []) := by
  by_cases hq : q = ""
  · subst hq
    refine ⟨fun _ => rfl, fun hne => ?_, fun _ => rfl⟩
    exact absurd (by simp [autoTerms, hcut]) hne
  · have hps : parse_str exprParse cut q = parseKeywordTerms (autoTerms cut q) := by
      simp [parse_str, hq, h, merge_req]
    refine ⟨fun he => ?_, fun hne => ?_, fun hws => ?_⟩
    · rw [hps, parseKeywordTerms, if_pos he]
    · refine ⟨by rw [hps, parseKeywordTerms, if_neg hne], List.nodup_dedup _, ?_⟩
      intro t ht
      have ht' : t ∈ autoTerms cut q := List.mem_dedup.mp ht
      simp only [autoTerms, List.mem_map, List.mem_filter] at ht'
      obtain ⟨s, ⟨hs, hsne⟩, rfl⟩ := ht'
      exact ⟨s, hs, by simpa using hsne, rfl⟩
    · have he : autoTerms cut q = [] := by
        simp only [autoTerms, List.map_eq_nil_iff, List.filter_eq_nil_iff]
        intro s hs
        simp [hws s hs]
      rw [hps, parseKeywordTerms, if_pos he]

/-- Witness for C1 at a concrete keyword query and a concrete tokenizer. -/
theorem c1_witness :
    judgeType "Fulltext Search fulltext" = false ∧
    parse_str (fun _ => []) spaceCut "Fulltext Search fulltext" =
      [Stage.matchStage (Cond.orEq "keywords" ["search", "fulltext"])] := by
  have h := c1_keyword_query (fun _ => []) spaceCut
    "Fulltext Search fulltext" (by decide) (by decide)
  refine ⟨by decide, ?_⟩
  rw [(h.2.1 (by decide)).1]
  decide

/-- C2: merging a non-empty extra filter into a non-empty parsed query ANDs
it into a leading match stage, leaving the stage count unchanged; with no
leading match stage it appends exactly one new match stage. -/
theorem c2_merge_extra_filters (q : List Stage) (r : Cond) (hq : q ≠ []) :
    ∃ out, merge_req q (some r) = some out ∧
      ((∃ c rest, q = Stage.matchStage c :: rest ∧
          out = Stage.matchStage (Cond.and c r) :: rest ∧
          out.length = q.length) ∨
        ((∀ c rest, q ≠ Stage.matchStage c :: rest) ∧
          out = q ++ [Stage.matchStage r] ∧
          out.length = q.length + 1)) := by
  rcases q with _ | ⟨s, rest⟩
  · exact absurd rfl hq
  · cases s
    case matchStage c => exact ⟨_, rfl, Or.inl ⟨c, rest, rfl, rfl, rfl⟩⟩
    all_goals
      exact ⟨_, rfl, Or.inr ⟨fun c rest' hcontra => by simp at hcontra, rfl, by simp⟩⟩

/-- Witness for C2: a query with a non-match leading stage gains exactly one
stage when the extra filter is merged. -/
theorem c2_witness :
    merge_req [Stage.lit "q"] (some (Cond.lit "f")) =
      some [Stage.lit "q", Stage.matchStage (Cond.lit "f")] := by
  obtain ⟨out, hout, hcases⟩ :=
    c2_merge_extra_filters [Stage.lit "q"] (Cond.lit "f") (by decide)
  rcases hcases with ⟨c, rest, habs, -⟩ | ⟨-, hout', -⟩
  · simp at habs
  · rw [hout, hout']
    rfl

/-- With a zero limit, a collection entered with skip 0 is returned whole. -/
theorem collFetch_zero (c : List α) : collFetch 0 c (some 0) = c := by
  simp [collFetch, applyLimit]

/-- A collection marked fully skipped contributes nothing. -/
theorem collFetch_none (limit : Nat) (c : List α) : collFetch limit c none = [] := rfl

/-- With a zero limit, a collection entered with skip s contributes its
documents after the first s. -/
theorem collFetch_some (c : List α) (s : Nat) :
    collFetch 0 c (some s) = c.drop s := by
  simp [collFetch, applyLimit]

/-- Collections past the break point of the skip loop (skip entry defaulting
to 0, limit 0) are returned whole, in order. -/
theorem fetch_zip_replicate (colls : List (List α)) :
    ((colls.zip (List.replicate colls.length (some 0))).map
      (fun p => collFetch 0 p.1 p.2)).flatten = colls.flatten := by
  induction colls with
  | nil => rfl
  | cons c cs ih =>
    simp only [List.length_cons, List.replicate_succ, List.zip_cons_cons,
      List.map_cons, List.flatten_cons, collFetch_zero, ih]

/-- Core of the global-skip argument: processing the collections against the
skip table (padded with default 0 entries) with no limit yields exactly the
concatenation of all collections with the global skip dropped from the
front. -/
theorem fetch_skip_table (colls : List (List α)) (skip : Nat) :
    ((colls.zip (skipsFor (colls.map List.length) skip ++
        List.replicate (colls.length - (skipsFor (colls.map List.length) skip).length)
          (some 0))).map
      (fun p => collFetch 0 p.1 p.2)).flatten = colls.flatten.drop skip := by
  induction colls generalizing skip with
  | nil => simp [skipsFor]
  | cons c cs ih =>
    by_cases hc : c.length ≤ skip
    · have hdrop : c.drop skip = [] := List.drop_eq_nil_of_le hc
      simp only [List.map_cons, skipsFor, if_pos hc, List.length_cons,
        List.cons_append, List.zip_cons_cons, collFetch_none, List.flatten_cons,
        List.nil_append, Nat.succ_sub_succ]
      rw [ih, List.drop_append_eq_append_drop, hdrop, List.nil_append]
    · simp only [List.map_cons, skipsFor, if_neg hc, List.length_cons,
        List.cons_append, List.length_singleton, List.length_nil,
        List.nil_append, List.zip_cons_cons, collFetch_some,
        List.flatten_cons, Nat.succ_sub_succ, Nat.sub_zero]
      rw [fetch_zip_replicate, List.drop_append_eq_append_drop,
        Nat.sub_eq_zero_of_le (Nat.le_of_not_le hc), List.drop_zero]

/-- C3: with no plugin handler, a positive global skip spans collection
boundaries. With no per-collection limit the stream is exactly the
concatenation of all collections with the skip dropped globally: collections
counted off by the skip contribute nothing, the remainder is dropped inside
the first collection with more documents, later collections are whole. At
sizes [5, 3, 7] and skip 6 the results begin at the second collection's
second record, and a per-collection limit of 2 is applied independently to
the partially-skipped and the later collections. -/
theorem c3_global_skip :
    (∀ (α : Type) (colls : List (List α)) (skip : Nat),
        fetch_all_rs colls skip 0 = colls.flatten.drop skip) ∧
    fetch_all_rs [[0, 1, 2, 3, 4], [10, 11, 12], [20, 21, 22, 23, 24, 25, 26]] 6 0 =
      [11, 12] ++ [20, 21, 22, 23, 24, 25, 26] ∧
    fetch_all_rs [[0, 1, 2, 3, 4], [10, 11, 12], [20, 21, 22, 23, 24, 25, 26]] 6 2 =
      [11, 12] ++ [20, 21] := by
  refine ⟨fun α colls skip => ?_, by decide, by decide⟩
  by_cases hs : skip > 0
  · simp only [fetch_all_rs, if_pos hs]
    exact fetch_skip_table colls skip
  · have hz : skip = 0 := Nat.eq_zero_of_not_pos hs
    subst hz
    simp only [fetch_all_rs, if_neg hs, List.length_nil, Nat.sub_zero,
      List.nil_append]
    rw [fetch_zip_replicate, List.drop_zero]

/-- C4: when the effective sort parses to the single ascending key random,
the emitted pipeline is the stored query followed by a sample stage bounded
by the configured limit: it ends with the sample stage, and no skip or limit
stage is appended whatever the configured skip and limit are. -/
theorem c4_random_sort_sample (q : List Stage) (limit skip : Nat) :
    fetchRsAgg q [("random", (1 : Int))] limit skip = q ++ [Stage.sample limit] ∧
    (fetchRsAgg q [("random", (1 : Int))] limit skip).getLast? =
      some (Stage.sample limit) ∧
    (fetchRsAgg q [("random", (1 : Int))] limit skip).countP (fun s => s.isSkip) =
      q.countP (fun s => s.isSkip) ∧
    (fetchRsAgg q [("random", (1 : Int))] limit skip).countP (fun s => s.isLimit) =
      q.countP (fun s => s.isLimit) := by
  have hagg : fetchRsAgg q [("random", (1 : Int))] limit skip =
      q ++ [Stage.sample limit] := by
    simp [fetchRsAgg]
  refine ⟨hagg, ?_, ?_, ?_⟩
  · rw [hagg]
    exact List.getLast?_concat _
  · rw [hagg, List.countP_append]
    simp [Stage.isSkip]
  · rw [hagg, List.countP_append]
    simp [Stage.isLimit]

/-- C5: `count` sums the per-collection counts when every collection counts
cleanly; an error in any collection yields the sentinel -1; the empty
collection list yields 0, distinct from the sentinel. The pipeline `count`
runs per collection is built with limit 0 and skip 0, so whatever the parsed
sort, no skip or limit stage is appended. -/
theorem c5_count :
    (∀ ns : List Nat, countDB (ns.map Except.ok) = (ns.sum : Int)) ∧
    (∀ (pre post : List (Except String Nat)) (e : String),
        countDB (pre ++ Except.error e :: post) = -1) ∧
    (countDB [] = 0 ∧ (0 : Int) ≠ -1) ∧
    (∀ (q : List Stage) (ps : List (String × Int)),
        (fetchRsAgg q ps 0 0).countP (fun s => s.isSkip) =
          q.countP (fun s => s.isSkip) ∧
        (fetchRsAgg q ps 0 0).countP (fun s => s.isLimit) =
          q.countP (fun s => s.isLimit)) := by
  have hsum : ∀ ns : List Nat, sumCounts (ns.map Except.ok) = some ns.sum := by
    intro ns
    induction ns with
    | nil => rfl
    | cons n rest ih => simp [sumCounts, ih]
  have herr : ∀ (pre post : List (Except String Nat)) (e : String),
      sumCounts (pre ++ Except.error e :: post) = none := by
    intro pre post e
    induction pre with
    | nil => rfl
    | cons a rest ih =>
      cases a with
      | ok n => simp [sumCounts, ih]
      | error s => rfl
  refine ⟨fun ns => ?_, fun pre post e => ?_, ⟨rfl, by decide⟩, fun q ps => ?_⟩
  · rw [countDB, hsum]
  · rw [countDB, herr]
  · constructor <;>
      · simp only [fetchRsAgg]
        split_ifs <;>
          simp_all [List.countP_append, List.countP_cons, Stage.isSkip, Stage.isLimit]

/-- C6 counterexample: a compiled query consisting of exactly one stage, the
raw marker itself, keeps the marker and leaves the raw flag untouched —
`DBQuery.__init__` requires more than one stage before stripping the marker,
so the claim fails on single-stage queries. -/
theorem c6_counterexample :
    applyRawMarker [Stage.rawMarker true] false = ([Stage.rawMarker true], false) := rfl

/-- C6 amended: when the compiled query has at least one stage besides a
trailing raw marker, construction sets the raw flag to the marker's value and
removes the marker stage. -/
theorem c6_raw_marker (q : List Stage) (b raw : Bool) (hq : q ≠ []) :
    applyRawMarker (q ++ [Stage.rawMarker b]) raw = (q, b) := by
  have hlen : 1 < (q ++ [Stage.rawMarker b]).length := by
    have hpos : 0 < q.length := List.length_pos.mpr hq
    simp only [List.length_append, List.length_singleton]
    omega
  simp only [applyRawMarker, if_pos hlen, List.getLast?_concat]
  rw [List.dropLast_concat]

/-- Witness for C6 amended: a two-stage query ending in the raw marker. -/
theorem c6_witness :
    applyRawMarker [Stage.lit "m", Stage.rawMarker true] false =
      ([Stage.lit "m"], true) := by
  have h := c6_raw_marker [Stage.lit "m"] true false (by decide)
  simpa using h

/-- In an association list whose keys are distinct, a key determines its
value. -/
theorem value_of_key_unique {V : Type} {l : List (String × Option V)}
    (h : (l.map Prod.fst).Nodup) {k : String} {v w : Option V}
    (h1 : (k, v) ∈ l) (h2 : (k, w) ∈ l) : v = w := by
  induction l with
  | nil => cases h1
  | cons a l ih =>
    rw [List.map_cons, List.nodup_cons] at h
    rcases List.mem_cons.mp h1 with rfl | h1t
    · rcases List.mem_cons.mp h2 with heq | h2t
      · exact (Prod.mk.injEq _ _ _ _ ▸ heq.symm).2
      · exact absurd (List.mem_map.mpr ⟨_, h2t, rfl⟩) h.1
    · rcases List.mem_cons.mp h2 with rfl | h2t
      · exact absurd (List.mem_map.mpr ⟨_, h1t, rfl⟩) h.1
      · exact ih h.2 h1t h2t

/-- C7: over a configuration with distinct keys, validation keeps exactly the
entries whose key is a declared constructor parameter and whose value is not
null; the survivors form a sublist of the original configuration, so their
values and relative order are unchanged. -/
theorem c7_config_validation {V : Type} (argnames : List String)
    (args : List (String × Option V)) (h : (args.map Prod.fst).Nodup) :
    (valid_args argnames args).Sublist args ∧
    ∀ k v, ((k, v) ∈ valid_args argnames args ↔
      (k, v) ∈ args ∧ k ∈ argnames ∧ v ≠ none) := by
  constructor
  · exact List.filter_sublist args
  · intro k v
    simp only [valid_args, List.mem_filter, Bool.not_eq_true', decide_eq_false_iff_not,
      List.mem_map, List.mem_filter, Prod.exists]
    constructor
    · rintro ⟨hmem, hnot⟩
      refine ⟨hmem, ?_, ?_⟩
      · by_contra hk
        exact hnot ⟨k, v, ⟨hmem, by simp [hk]⟩, rfl⟩
      · intro hv
        exact hnot ⟨k, v, ⟨hmem, by simp [hv]⟩, rfl⟩
    · rintro ⟨hmem, hk, hv⟩
      refine ⟨hmem, ?_⟩
      rintro ⟨k', w, ⟨hmem', hflag⟩, rfl⟩
      have hw : w = v := value_of_key_unique h hmem' hmem
      subst hw
      simp only [Bool.or_eq_true, Bool.not_eq_true', decide_eq_false_iff_not,
        Option.isNone_iff_eq_none] at hflag
      rcases hflag with hbad | hbad
      · exact hbad hk
      · exact hv hbad

/-- Witness for C7: a declared non-null key survives, an undeclared key is
dropped, a null-valued declared key is dropped. -/
theorem c7_witness :
    ("a", some 1) ∈
      valid_args ["a", "b"] [("a", some 1), ("c", some 2), ("b", (none : Option Nat))] ∧
    ("c", some 2) ∉
      valid_args ["a", "b"] [("a", some 1), ("c", some 2), ("b", (none : Option Nat))] ∧
    ("b", (none : Option Nat)) ∉
      valid_args ["a", "b"] [("a", some 1), ("c", some 2), ("b", (none : Option Nat))] := by
  have h := c7_config_validation ["a", "b"]
    [("a", some 1), ("c", some 2), ("b", (none : Option Nat))] (by decide)
  refine ⟨(h.2 "a" (some 1)).mpr ⟨by decide, by decide, by decide⟩, ?_, ?_⟩
  · intro hc
    exact absurd ((h.2 "c" (some 2)).mp hc).2.1 (by decide)
  · intro hb
    exact absurd ((h.2 "b" none).mp hb).2.2 (by simp)

/-- C8: a record entering an iterate-while stage with `times = 3`, the default
condition, and a non-empty sub-pipeline runs the sub-pipeline exactly 3 times,
then is routed onward with the namespaced counter field cleared: starting
with the counter field absent, the stage emits the payload transformed three
times, counter field absent, sub-pipeline execution count 3. -/
theorem c8_repeat_three_times (α : Type) (sub : α → α) (p : α) :
    runRepeat 3 sub true 4 p none = some (sub (sub (sub p)), none, 3) := rfl

/-- With the running flag down, the worker loop returns its state unchanged. -/
theorem queueRun_stopped (exec : σ → Except (String × String) ρ) (n : Nat)
    (s : QState σ ρ) (h : s.running = false) : queueRun exec n s = s := by
  cases n with
  | zero => rfl
  | succ n => simp [queueRun, h]

/-- Running the worker loop with enough fuel drains the queue into the
results map, appending one outcome per task after the already-stored
results. -/
theorem queueRun_drains (exec : σ → Except (String × String) ρ)
    (q : List (String × σ)) :
    ∀ (fuel : Nat) (acc : List (String × TaskResult ρ)), q.length < fuel →
      queueRun exec fuel ⟨true, q, acc, ""⟩ =
        ⟨false, [], acc ++ q.map (fun kt => (kt.1, mkResult (exec kt.2))), ""⟩ := by
  induction q with
  | nil =>
    intro fuel acc hfuel
    match fuel, hfuel with
    | fuel + 1, _ =>
      rw [queueRun, if_pos rfl]
      rw [show queueStep exec ⟨true, [], acc, ""⟩ = ⟨false, [], acc, ""⟩ from rfl]
      rw [queueRun_stopped exec fuel _ rfl]
      simp
  | cons kt q ih =>
    intro fuel acc hfuel
    match fuel, hfuel with
    | fuel + 1, hfuel' =>
      rw [queueRun, if_pos rfl]
      rw [show queueStep exec ⟨true, kt :: q, acc, ""⟩ =
        ⟨true, q, acc ++ [(kt.1, mkResult (exec kt.2))], ""⟩ from rfl]
      rw [ih fuel _ (by simp only [List.length_cons] at hfuel'; omega)]
      simp

/-- C9: every exception from task construction or execution inside the worker
loop is caught and stored under the task's run id as the structured failure,
and the loop continues: from a fresh start with enough fuel the loop ends
with the running flag down, an empty queue, and one stored outcome per queued
task in order — ok results for clean executions and message-plus-trace
failures for raising ones — so no task's failure terminates the loop early. -/
theorem c9_worker_loop (σ ρ : Type) (exec : σ → Except (String × String) ρ)
    (q : List (String × σ)) (fuel : Nat) (h : q.length < fuel) :
    queueRun exec fuel ⟨true, q, [], ""⟩ =
      ⟨false, [], q.map (fun kt => (kt.1, mkResult (exec kt.2))), ""⟩ := by
  have hd := queueRun_drains exec q fuel [] h
  simpa using hd

/-- Witness for C9: three queued tasks where the middle one raises; the
failure is stored structured and the third task still runs. -/
theorem c9_witness :
    queueRun (fun n => if n = 1 then Except.error ("boom", "tb") else Except.ok n) 4
        ⟨true, [("a", 0), ("b", 1), ("c", 2)], [], ""⟩ =
      ⟨false, [],
        [("a", TaskResult.ok 0), ("b", TaskResult.failure "boom" "tb"),
          ("c", TaskResult.ok 2)], ""⟩ := by
  have h := c9_worker_loop Nat Nat
    (fun n => if n = 1 then Except.error ("boom", "tb") else Except.ok n)
    [("a", 0), ("b", 1), ("c", 2)] 4 (by decide)
  simpa [mkResult] using h

/-- C10: `fetch_rs` appends its sort, skip and limit stages to the stored
compiled query itself — the local aggregation variable aliases the stored
list — so for any state with a non-identity, non-random sort, one call leaves
the stored query with one more sort stage than before. -/
theorem c10_fetch_rs_mutates (st : DBQueryState)
    (h1 : st.sort ≠ []) (h2 : st.sort ≠ [("_id", (1 : Int))])
    (h3 : st.sort ≠ [("random", (1 : Int))]) :
    countSorts (fetch_rs st).1.query = countSorts st.query + 1 := by
  have hcond : ¬(st.sort = [] ∨ st.sort = [("_id", (1 : Int))]) := by
    rintro (hc | hc)
    · exact h1 hc
    · exact h2 hc
  simp only [fetch_rs, fetchRsAgg, countSorts]
  rw [if_neg hcond, if_neg h3]
  by_cases hs : st.skip > 0 <;> by_cases hl : st.limit > 0 <;>
    simp [hs, hl, List.countP_append, List.countP_cons, Stage.isSort]

/-- Witness for C10 at a concrete state sorted by recency. -/
theorem c10_witness :
    countSorts
        (fetch_rs ⟨[Stage.lit "m"], [("pdate", (-1 : Int))], 0, 0⟩).1.query = 1 := by
  have h := c10_fetch_rs_mutates ⟨[Stage.lit "m"], [("pdate", (-1 : Int))], 0, 0⟩
    (by decide) (by decide) (by decide)
  simpa [countSorts, Stage.isSort] using h

end Jindai
